import Mathlib

/-!
Verification of the `bevy_hooked` reconciliation core against its
specification.  The development shallowly embeds the data model and the
operations of `src/fctx.rs`, `src/internal.rs` and `src/dom.rs`:

* type-erased boxed closures (`Box<dyn FnOnce ...>`) are modelled by opaque
  numeric tags (`ClosureId`); running a closure is recorded as an event in an
  explicit trace;
* reference-counted shared values (`Rc`/`Arc`) are modelled by `Arc`, a value
  paired with a numeric allocation tag, so that "same reference" is the
  decidable equality of tags;
* `HashMap`s keyed by entity ids are modelled by association lists / inductive
  trees, `HashSet`s of ids by `Finset Nat`;
* every `.unwrap()` on an option that can be `None` at runtime is modelled by
  an `Except Panic` result.
-/

namespace BevyHooked

/-- Identifier of a mounted node (`MountedId(Entity)` in `internal.rs`). -/
abbrev MountedId := Nat

/-- Identifier of a native primitive handle (`PrimitiveId(Entity)` in `dom.rs`). -/
abbrev PrimitiveId := Nat

/-- Numeric tag standing for a type-erased boxed closure. -/
abbrev ClosureId := Nat

/-- A reference-counted shared value (`Rc<T>` / `Arc<T>`): the payload together
with the allocation identity of the cell.  Two `Arc`s are "the same reference"
iff their `tag`s agree.  Mutating through `Rc::get_mut` keeps the tag. -/
structure Arc (α : Type) where
  tag : Nat
  val : α
  deriving DecidableEq, Repr

namespace Hooks

/-! ### Hook slots (`src/fctx.rs`)

The hook-local state of one component node: state slots, memo slots and
effect slots, visited by a per-render cursor.  Dependency keys and stored
values are monomorphised to `Nat`; the `downcast` of the type-erased boxes
always succeeds because a fixed call site always uses one type. -/

/-- A memo slot (`struct Memo { eq_cache, val }`, fctx.rs:261-264). -/
structure Memo where
  eq_cache : Nat
  val : Arc Nat
  deriving DecidableEq, Repr

/-- Stage of an effect slot (`enum EffectStage`, internal.rs:57-60): a pending
setup closure, or the cleanup closure returned by an already-run setup. -/
inductive EffectStage where
  | effect (setup : ClosureId)
  | destructor (cleanup : ClosureId)
  deriving DecidableEq, Repr

/-- An effect slot (`struct Effect { eq_cache, f }`, internal.rs:52-55).
`eq_cache` is the optional dependency key. -/
structure Effect where
  eq_cache : Option Nat
  f : EffectStage
  deriving DecidableEq, Repr

/-- Events observable while driving hook slots: a setup closure being run
(producing a cleanup) or a cleanup closure being run. -/
inductive HookEvent where
  | runSetup (s : ClosureId)
  | runCleanup (c : ClosureId)
  deriving DecidableEq, Repr

/-- The cleanup closure returned by running setup closure `s`.  In the source
the setup returns a fresh boxed closure; we tag it with the setup's own tag. -/
def cleanupOf (s : ClosureId) : ClosureId := s

/-! #### `Fctx::use_memo` (fctx.rs:149-183) -/

/-- Result of one `use_memo` call: the `Ref` handed back to the component, the
slot content after the call, and how many times the compute closure ran. -/
structure MemoOut where
  ret : Arc Nat
  slot : Memo
  computeCount : Nat
  deriving DecidableEq, Repr

/-- First-render branch of `use_memo` (fctx.rs:160-166): compute, wrap in a
fresh `Arc` (allocation tag `freshTag`) and push the slot. -/
def useMemoFirst (eq_cache : Nat) (f : Unit → Nat) (freshTag : Nat) : MemoOut :=
  let rc : Arc Nat := ⟨freshTag, f ()⟩
  { ret := rc, slot := { eq_cache := eq_cache, val := rc }, computeCount := 1 }

/-- Update branch of `use_memo` (fctx.rs:167-182): take the stored slot; if the
stored key differs from the new key, recompute (`memo.val = Arc::new(f())`,
allocating a fresh `Arc` with tag `freshTag`) and store the new key; otherwise
leave the slot alone.  Either way, return (a clone of) the slot's value. -/
def useMemoUpdate (slot : Memo) (eq_cache : Nat) (f : Unit → Nat) (freshTag : Nat) :
    MemoOut :=
  if slot.eq_cache ≠ eq_cache then
    let v : Arc Nat := ⟨freshTag, f ()⟩
    { ret := v, slot := { eq_cache := eq_cache, val := v }, computeCount := 1 }
  else
    { ret := slot.val, slot := slot, computeCount := 0 }

/-! #### `Fctx::use_effect` (fctx.rs:110-147) -/

/-- The rerun condition of `use_effect` on update (fctx.rs:123-129): the stored
key zipped with the new key, unequal-by-value, defaulting to `true` when either
side is absent.  (`slot` is passed as an `Option` to mirror `effects.get(..)`.) -/
def effectCondition (stored : Option (Option Nat)) (eq_cache : Option Nat) : Bool :=
  match stored.bind id, eq_cache with
  | some v, some f => v ≠ f
  | _, _ => true

/-- Result of one `use_effect` update call: the slot afterwards and the events
(cleanup runs) it caused. -/
structure EffectOut where
  slot : Effect
  events : List HookEvent
  deriving DecidableEq, Repr

/-- First-render branch of `use_effect` (fctx.rs:117-121): push a pending
setup; nothing runs yet. -/
def useEffectFirst (eq_cache : Option Nat) (setup : ClosureId) : Effect :=
  { eq_cache := eq_cache, f := .effect setup }

/-- Update branch of `use_effect` (fctx.rs:122-146): if the rerun condition
holds, run the stored cleanup (if the slot is in `Destructor` stage) and
replace the slot with a pending setup carrying the new key; otherwise leave the
slot untouched and run nothing. -/
def useEffectUpdate (slot : Effect) (eq_cache : Option Nat) (setup : ClosureId) :
    EffectOut :=
  if effectCondition (some slot.eq_cache) eq_cache then
    { slot := { eq_cache := eq_cache, f := .effect setup }
      events :=
        match slot.f with
        | .effect _ => []
        | .destructor d => [.runCleanup d] }
  else
    { slot := slot, events := [] }

/-! #### Effect execution in the reconciler (`src/internal.rs`) -/

/-- End of `Context::mount` (internal.rs:387-395): every pending setup is run
and its slot becomes a `Destructor` holding the returned cleanup; slots already
in `Destructor` stage are untouched. -/
def runPendingEffect (e : Effect) : Effect × List HookEvent :=
  match e.f with
  | .effect s => ({ eq_cache := e.eq_cache, f := .destructor (cleanupOf s) }, [.runSetup s])
  | .destructor _ => (e, [])

/-- Effect handling in `Context::unmount` (internal.rs:429-434): only slots in
`Destructor` stage run their cleanup; a pending setup is dropped silently. -/
def unmountEffects (effects : List Effect) : List HookEvent :=
  (effects.map fun e =>
    match e.f with
    | .destructor d => [HookEvent.runCleanup d]
    | .effect _ => []).flatten

/-- Life of a single effect slot across mount → one update render → unmount,
composed from the model functions exactly as the source sequences them:
`use_effect` first-render (fctx.rs:117-121), the pending-setup run at the end
of `Context::mount` (internal.rs:387-395), `use_effect` on the update render
with the new key (fctx.rs:122-146) — `Component::update` (internal.rs:74-94)
performs no effect processing after the render call — and the effect handling
of `Context::unmount` (internal.rs:429-434). -/
def effectLifecycleTrace (k₁ k₂ : Option Nat) (s₁ s₂ : ClosureId) : List HookEvent :=
  let e₀ := useEffectFirst k₁ s₁
  let mounted := runPendingEffect e₀
  let upd := useEffectUpdate mounted.1 k₂ s₂
  mounted.2 ++ upd.events ++ unmountEffects [upd.slot]

/-! #### `Fctx::use_state` and `Setter` (fctx.rs:85-108, 288-300) -/

/-- The `Setter` capability: the owning node and the state-slot index it was
created for (fctx.rs:266-271). -/
structure Setter where
  target : MountedId
  state : Nat
  deriving DecidableEq, Repr

/-- A queued mutation message (`struct EffectResolver`, internal.rs:21-25):
the value-mutation payload, the target node, and the optional state-slot
index. -/
structure Msg where
  f : Nat → Nat
  targetComponent : MountedId
  targetState : Option Nat

/-- Update branch of `use_state` (fctx.rs:93-107): read the slot at the cursor
(`states.get(sel).unwrap()` — `none` on a hook-order violation), clone the
shared value, and hand out a `Setter` capturing the node and the slot index.
The slot array is only borrowed immutably; nothing is written. -/
def useStateUpdate (states : List (Arc Nat)) (sel : Nat) (id : MountedId) :
    Option (Arc Nat × Setter) :=
  (states.get? sel).map fun a => (a, { target := id, state := sel })

end Hooks

namespace Dispatch

/-! ### The Dispatcher (`Context::process_messages`, internal.rs:214-307)

The reconciler's tree storage `tree : HashMap<MountedId, Mounted>` together
with each node's `Children` encodes a tree of mounted nodes; we model that
tree inductively.  A node carries its id, `none` for a `MountedInner::Primitive`
or `some slots` for a `MountedInner::Component` (its state-slot array), and its
children (unkeyed and keyed children merged into one list — the walk in
`process_messages` iterates both via `Children::into_iter`). -/

inductive DTree where
  | node (id : MountedId) (comp : Option (List (Arc Nat))) (children : List DTree)

/-- The node's own id. -/
def DTree.rootId : DTree → MountedId
  | .node i _ _ => i

/-- The node's component state (`MountedInner::as_component`): `none` for a
primitive node. -/
def DTree.comp : DTree → Option (List (Arc Nat))
  | .node _ c _ => c

/-- The node's children. -/
def DTree.children : DTree → List DTree
  | .node _ _ cs => cs

/-- Ids of the roots of a list of trees and of everything below them. -/
def idsL : List DTree → List Nat
  | [] => []
  | .node i _ cs :: rest => i :: (idsL cs ++ idsL rest)

/-- All ids occurring in a tree: the root's id and every id below it. -/
def allIds (t : DTree) : List Nat := t.rootId :: idsL t.children

/-- Lookup of a mounted node by id (`self.tree.get(..)` / `get_mut(..)`),
returning the subtree rooted at that node; depth-first search stands in for
the hash-map lookup. -/
def findL : List DTree → Nat → Option DTree
  | [], _ => none
  | .node j c cs :: rest, i =>
    if j = i then some (.node j c cs)
    else
      match findL cs i with
      | some s => some s
      | none => findL rest i

/-- Lookup in a whole tree. -/
def find (t : DTree) (i : Nat) : Option DTree :=
  if t.rootId = i then some t else findL t.children i

/-- Rewrite every component node's state-slot array with `g` applied to the
node's id (used to express the point mutation a message performs). -/
def mapL (g : Nat → List (Arc Nat) → List (Arc Nat)) : List DTree → List DTree
  | [] => []
  | .node i c cs :: rest => .node i (c.map (g i)) (mapL g cs) :: mapL g rest

/-- `mapL` on a single tree. -/
def mapNode (g : Nat → List (Arc Nat) → List (Arc Nat)) : DTree → DTree
  | .node i c cs => .node i (c.map (g i)) (mapL g cs)

/-- Apply a queued value mutation (internal.rs:253-257): inside node `id`,
replace state slot `ts` by the result of the message's closure.  `Rc::get_mut`
mutates the shared cell in place, so the `Arc`'s allocation tag is kept. -/
def updateState (t : DTree) (id : Nat) (ts : Nat) (f : Nat → Nat) : DTree :=
  mapNode (fun i s => if i = id then s.modify (fun a => ⟨a.tag, f a.val⟩) ts else s) t

/-- The recursive dirty walk (`fn recursive`, internal.rs:264-277) over a list
of children: each child id is removed from *roots*; if it was not yet flagged
it is added to *flagged* and its own children are walked (`flagged.insert`
returning `false` skips the recursion). -/
def walkL : List DTree → Finset Nat × Finset Nat → Finset Nat × Finset Nat
  | [], rf => rf
  | .node i _ cs :: rest, rf =>
    let r₁ := rf.1.erase i
    if i ∈ rf.2 then walkL rest (r₁, rf.2)
    else walkL rest (walkL cs (r₁, insert i rf.2))

/-- The panics that `process_messages` can hit: `tree.get_mut(..).unwrap()` on
a target that is not mounted, `as_component().unwrap()` on a primitive target,
and the `component.state[ts]` index on a missing slot. -/
inductive Panic where
  | targetMissing
  | notComponent
  | slotMissing
  deriving DecidableEq, Repr

/-- Observable dispatcher events: one re-render pass (`Component::update`,
internal.rs:283-305) rooted at a node.  The re-render reconciles the root's
subtree; in this model it neither mutates hook slots of other nodes nor
enqueues further messages. -/
inductive REvent where
  | rerender (id : Nat)
  deriving DecidableEq, Repr

/-- Processing of a single drained message (internal.rs:245-281): look the
target up (panicking if it was unmounted), insist it is a component, apply the
value payload to the addressed slot, and then — unless the target is already
flagged — insert it into *roots* and run the recursive walk from it. -/
def processOne (t : DTree) (rf : Finset Nat × Finset Nat) (m : Hooks.Msg) :
    Except Panic (DTree × Finset Nat × Finset Nat) :=
  match find t m.targetComponent with
  | none => .error .targetMissing
  | some sub =>
    match sub.comp with
    | none => .error .notComponent
    | some slots =>
      let flagStep := fun (t' : DTree) =>
        if m.targetComponent ∈ rf.2 then (t', rf.1, rf.2)
        else (t', walkL sub.children (insert m.targetComponent rf.1, rf.2))
      match m.targetState with
      | some ts =>
        if ts < slots.length then
          .ok (flagStep (updateState t m.targetComponent ts m.f))
        else .error .slotMissing
      | none => .ok (flagStep t)

/-- Drain the queue (`self.rx.try_iter()`, internal.rs:245-281): fold
`processOne` over the queued messages starting from empty *roots* and
*flagged*. -/
def drainMsgs (t : DTree) (msgs : List Hooks.Msg) :
    Except Panic (DTree × Finset Nat × Finset Nat) :=
  msgs.foldlM (fun acc m => processOne acc.1 acc.2 m) (t, (∅ : Finset Nat), (∅ : Finset Nat))

/-- The re-render pass over the remaining roots (internal.rs:283-305): each
root must still be mounted and a component (both `.unwrap()`ed), and `update`
re-renders its subtree. -/
def renderRoots (t : DTree) : List Nat → Except Panic (List REvent)
  | [] => .ok []
  | r :: rs =>
    match find t r with
    | none => .error .targetMissing
    | some sub =>
      match sub.comp with
      | none => .error .notComponent
      | some _ => (renderRoots t rs).map fun evs => .rerender r :: evs

/-- One pump cycle over an explicit message list (`process_messages`,
internal.rs:214-307, with no registered resource/component checks): drain all
queued messages, clear *flagged*, then re-render every remaining root.  The
`HashSet::drain` iteration order is unspecified in the source; the model
renders roots in ascending id order. -/
def processDrain (t : DTree) (msgs : List Hooks.Msg) :
    Except Panic (DTree × List REvent) := do
  let (t', roots, _flagged) ← drainMsgs t msgs
  let evs ← renderRoots t' (roots.sort (· ≤ ·))
  return (t', evs)

/-- The engine state a `Setter` call site can affect: the mounted tree plus
the message queue (the sending half of the channel). -/
structure SysState where
  tree : DTree
  queue : List Hooks.Msg

/-- `Setter::set` (fctx.rs:288-300): build an `EffectResolver` carrying the
captured node id and slot index and send it on the channel.  Only the queue
grows; the tree — and with it every stored state value — is untouched, and
nothing is applied synchronously. -/
def setterSend (s : Hooks.Setter) (f : Nat → Nat) (st : SysState) : SysState :=
  { tree := st.tree
    queue := st.queue ++ [{ f := f, targetComponent := s.target, targetState := some s.state }] }

/-- `PathAt t p s`: descending from the root of `t` along mounted children,
the ids in `p` lead to the subtree `s` (`p = []` means `s = t`).  A nonempty
`p` states that `s`'s root is a mounted strict descendant of `t`'s root. -/
inductive PathAt : DTree → List Nat → DTree → Prop where
  | refl (t : DTree) : PathAt t [] t
  | step {t c s : DTree} {p : List Nat} (hc : c ∈ t.children) (h : PathAt c p s) :
      PathAt t (c.rootId :: p) s

end Dispatch

namespace Unmount

/-! ### `Context::unmount` (internal.rs:417-439) -/

/-- Teardown events: releasing a primitive's native handle (`dom.remove`,
internal.rs:425-427) and running an effect's cleanup closure
(internal.rs:429-434). -/
inductive TEvent where
  | removePrim (pid : PrimitiveId)
  | runCleanup (c : ClosureId)
  deriving DecidableEq, Repr

/-- A mounted subtree as `unmount` sees it: a `MountedInner::Primitive` with
its native handle, or a `MountedInner::Component` with its effect slots; each
with its `Children` (unkeyed list plus keyed map, modelled as an association
list). -/
inductive MTree where
  | prim (pid : PrimitiveId) (unkeyed : List MTree) (keyed : List (Nat × MTree))
  | comp (effects : List Hooks.Effect) (unkeyed : List MTree) (keyed : List (Nat × MTree))

/-- The cleanups run for a component's effect slots on unmount
(internal.rs:429-434): slots in `Destructor` stage run their cleanup, pending
`Effect`-stage slots are skipped. -/
def activeCleanups (effects : List Hooks.Effect) : List TEvent :=
  (effects.map fun e =>
    match e.f with
    | .destructor d => [TEvent.runCleanup d]
    | .effect _ => []).flatten

mutual

/-- Trace of `Context::unmount` (internal.rs:417-439): remove the node from
the tree, recursively unmount every child (`Children::into_iter` yields the
unkeyed children in order, then the keyed ones), then run the node's own
teardown. -/
def unmountTrace : MTree → List TEvent
  | .prim pid u k => unmountU u ++ unmountK k ++ [.removePrim pid]
  | .comp es u k => unmountU u ++ unmountK k ++ activeCleanups es

/-- Recursive unmount of the unkeyed children, in order. -/
def unmountU : List MTree → List TEvent
  | [] => []
  | t :: ts => unmountTrace t ++ unmountU ts

/-- Recursive unmount of the keyed children (the `HashMap` value iteration
order is unspecified in the source; the association-list order is used). -/
def unmountK : List (Nat × MTree) → List TEvent
  | [] => []
  | (_, t) :: ts => unmountTrace t ++ unmountK ts

end

/-- The node's own teardown, as the specification words it: a primitive
releases its native handle via the Bridge; a component runs every still-active
effect cleanup. -/
def ownTeardown : MTree → List TEvent
  | .prim pid _ _ => [.removePrim pid]
  | .comp es _ _ => activeCleanups es

/-- Recursive teardown of all of a node's children (unkeyed first, then
keyed), the part the specification requires to happen before the node's own
teardown. -/
def childTeardown : MTree → List TEvent
  | .prim _ u k => unmountU u ++ unmountK k
  | .comp _ u k => unmountU u ++ unmountK k

end Unmount

namespace ChildDiff

/-! ### `Context::diff_children` (internal.rs:515-555) — matching decisions

`diff_children` walks the new child `Element`s in order and decides, for each,
whether it is diffed against an existing child (keyed lookup, or popping the
last element of the unkeyed vector) or freshly mounted; afterwards all
unmatched old children are unmounted.  `diffChildrenOps` records exactly that
sequence of decisions; old children are identified by their `MountedId`, new
elements by an opaque payload. -/

/-- A new child `Element` as `diff_children` inspects it: its optional `Key`
and an opaque payload identifying it. -/
structure NewElem where
  key : Option Nat
  payload : Nat
  deriving DecidableEq, Repr

/-- One decision of `diff_children`: `self.diff(old, new)`, `self.mount(new)`
or `self.unmount(old)`. -/
inductive ChildOp where
  | pairDiff (oldId : Nat) (payload : Nat)
  | mountNew (payload : Nat)
  | unmountOld (oldId : Nat)
  deriving DecidableEq, Repr

/-- `old.keyed.remove(&key)` — lookup part. -/
def lookupKey (l : List (Nat × Nat)) (k : Nat) : Option Nat :=
  (l.find? fun p => p.1 == k).map (·.2)

/-- `old.keyed.remove(&key)` — removal part. -/
def removeKey (l : List (Nat × Nat)) (k : Nat) : List (Nat × Nat) :=
  l.eraseP fun p => p.1 == k

/-- The loop of `diff_children` (internal.rs:524-544) followed by the
unmount of the leftovers (internal.rs:545-554).  `ourRev` is the unkeyed
vector reversed, so that `Vec::pop` (take from the tail) is taking the head;
the leftover unkeyed children are unmounted in their original front-to-back
order, then the leftover keyed children. -/
def diffChildrenGo (ourRev : List Nat) (ok : List (Nat × Nat)) :
    List NewElem → List ChildOp
  | [] =>
    (ourRev.reverse.map ChildOp.unmountOld) ++ (ok.map fun p => ChildOp.unmountOld p.2)
  | e :: rest =>
    match e.key with
    | some k =>
      match lookupKey ok k with
      | some oldId => .pairDiff oldId e.payload :: diffChildrenGo ourRev (removeKey ok k) rest
      | none => .mountNew e.payload :: diffChildrenGo ourRev ok rest
    | none =>
      match ourRev with
      | o :: our' => .pairDiff o e.payload :: diffChildrenGo our' ok rest
      | [] => .mountNew e.payload :: diffChildrenGo ourRev ok rest

/-- The decision sequence of `diff_children` on old children
(`unkeyed`/`keyed`) and a new child list. -/
def diffChildrenOps (oldUnkeyed : List Nat) (oldKeyed : List (Nat × Nat))
    (new : List NewElem) : List ChildOp :=
  diffChildrenGo oldUnkeyed.reverse oldKeyed new

end ChildDiff

namespace PrimDiff

/-! ### Mount/diff of primitive trees and the Bridge calls they issue

`Context::mount` (internal.rs:320-354), `Context::diff` (internal.rs:447-470)
and `Context::unmount` (internal.rs:417-427), specialised to `Element` trees
that contain only unkeyed primitive nodes; `Dom` (dom.rs) is the Bridge, and
every Bridge call is recorded as an event.  Primitive ids are allocated from a
running counter (`world.spawn()`). -/

/-- `PrimitiveData` (dom.rs:13-19). -/
inductive PrimitiveData where
  | node
  | text (s : String)
  | image
  | button
  deriving DecidableEq, Repr

/-- An unkeyed primitive `Element`: primitive payload plus child elements
(`ElementInner::Primitive`, internal.rs:133). -/
inductive PElem where
  | mk (data : PrimitiveData) (children : List PElem)

/-- The mounted counterpart: `MountedInner::Primitive` stores only the
`PrimitiveId` handle (internal.rs:176) plus the children. -/
inductive PTree where
  | mk (pid : Nat) (children : List PTree)

/-- The three Bridge mutation calls of `Dom` (dom.rs:35-88). -/
inductive BEvent where
  | mountAsChild (pid : Nat) (d : PrimitiveData)
  | diffPrimitive (pid : Nat) (d : PrimitiveData)
  | removePrim (pid : Nat)
  deriving DecidableEq, Repr

/-- Whether an event is an in-place `diff_primitive` call. -/
def BEvent.isDiff : BEvent → Bool
  | .diffPrimitive _ _ => true
  | _ => false

mutual

/-- `Context::mount` on a primitive element (internal.rs:320-354): create the
native handle via `dom.mount_as_child`, then mount the children in order.
`c` is the id allocator. -/
def mountPrim : PElem → Nat → PTree × Nat × List BEvent
  | .mk d ch, c =>
    let rest := mountPrimL ch (c + 1)
    (⟨c, rest.1⟩, rest.2.1, .mountAsChild c d :: rest.2.2)

/-- Mounting a list of child elements left to right. -/
def mountPrimL : List PElem → Nat → List PTree × Nat × List BEvent
  | [], c => ([], c, [])
  | e :: es, c =>
    let m := mountPrim e c
    let ms := mountPrimL es m.2.1
    (m.1 :: ms.1, ms.2.1, m.2.2 ++ ms.2.2)

end

mutual

/-- `Context::unmount` on a primitive subtree (internal.rs:417-427): children
first, then `dom.remove` on the node's handle. -/
def unmountPrim : PTree → List BEvent
  | .mk pid ch => unmountPrimL ch ++ [.removePrim pid]

/-- Unmounting a list of children in order. -/
def unmountPrimL : List PTree → List BEvent
  | [] => []
  | t :: ts => unmountPrim t ++ unmountPrimL ts

end

mutual

/-- `Context::diff`, Primitive-vs-Primitive arm (internal.rs:448-470): always
`dom.diff_primitive(p_id, new)`, then reconcile the children. -/
def diffPrim : PTree → PElem → Nat → PTree × Nat × List BEvent
  | .mk pid tch, .mk d ech, c =>
    let r := diffChildrenP tch.reverse ech c
    (⟨pid, r.1⟩, r.2.1, .diffPrimitive pid d :: r.2.2)

/-- `Context::diff_children` for unkeyed children (internal.rs:515-555): the
first argument is the old unkeyed vector reversed (`Vec::pop` takes from the
tail); each new element is diffed against the popped old child or freshly
mounted, and after the loop the unmatched old children are unmounted in their
original order. -/
def diffChildrenP : List PTree → List PElem → Nat → List PTree × Nat × List BEvent
  | rem, [], c => ([], c, unmountPrimL rem.reverse)
  | [], e :: es, c =>
    let m := mountPrim e c
    let r := diffChildrenP [] es m.2.1
    (m.1 :: r.1, r.2.1, m.2.2 ++ r.2.2)
  | t :: ts, e :: es, c =>
    let d := diffPrim t e c
    let r := diffChildrenP ts es d.2.1
    (d.1 :: r.1, r.2.1, d.2.2 ++ r.2.2)

end

mutual

/-- Number of primitive nodes in an element tree. -/
def countP : PElem → Nat
  | .mk _ ch => 1 + countPL ch

/-- Number of primitive nodes in a list of element trees. -/
def countPL : List PElem → Nat
  | [] => 0
  | e :: es => countP e + countPL es

end

mutual

/-- Every node's child list is invariant under reversal (in particular this
holds when every node has at most one child).  Because `diff_children` pops
old unkeyed children from the tail while consuming new elements from the
head, this is the condition under which re-diffing a tree against the very
element it was mounted from pairs every old child with an equal element. -/
def palinP : PElem → Prop
  | .mk _ ch => ch = ch.reverse ∧ palinL ch

/-- `palinP` for every member of a list. -/
def palinL : List PElem → Prop
  | [] => True
  | e :: es => palinP e ∧ palinL es

end

/-- `MountsOf t e`: `t` is the mounted tree obtained by mounting `e` at some
primitive-id counter value. -/
def MountsOf (t : PTree) (e : PElem) : Prop := ∃ c, t = (mountPrim e c).1

end PrimDiff

namespace CompDiff

/-! ### `Context::diff`, Component-vs-Component arm (internal.rs:471-499)

The stored property bundle and function identity of a mounted component
(`Component { f, props, .. }`) against a new `ElementInner::Component`; the
recursive child reconciliation is recorded as events.  `fnId` stands for
`fn_type_id()`, `props` for the type-erased property bundle. -/

/-- The parts of a mounted `Component` node this claim is about: the render
function's identity and the stored property bundle. -/
structure CompState where
  fnId : Nat
  props : Nat
  deriving DecidableEq, Repr

/-- Events of a component diff: a render-function invocation with the
property bundle it receives (`f.call(&*props, ..)`), and the unmount/remount
pair of the replacement path. -/
inductive CEvent where
  | renderCall (fnId props : Nat)
  | unmountOld
  | mountNew (fnId props : Nat)
  deriving DecidableEq, Repr

/-- `use_memoized` (internal.rs:645-647 and 664-670): always `false` for a
plain component function; property-bundle equality for a
`MemoizableComponentFunc`. -/
def useMemoized (memoized : Bool) (oldProps newProps : Nat) : Bool :=
  memoized && (oldProps == newProps)

/-- `Context::diff`, Component-vs-Component (internal.rs:471-499).  Matching
`fn_type_id`: unless memo-skip applies, `Component::update`
(internal.rs:74-94) re-invokes the render function with the *stored* props
(`self.f.call(&*self.props, ..)`) and the node keeps its stored props — the
new element's bundle is dropped.  Differing `fn_type_id`: the old node is
fully unmounted (children drained first, internal.rs:484-496) and the new
element is mounted, which runs a first render with the new props and stores
them (internal.rs:355-413). -/
def diffComponent (old : CompState) (memoized : Bool) (newFnId newProps : Nat) :
    CompState × List CEvent :=
  if old.fnId = newFnId then
    if useMemoized memoized old.props newProps then (old, [])
    else (old, [.renderCall old.fnId old.props])
  else
    ({ fnId := newFnId, props := newProps },
      [.unmountOld, .renderCall newFnId newProps, .mountNew newFnId newProps])

end CompDiff

/-! ## Theorems -/

open Hooks in
/-- C6: on an update render, `use_memo` with a dependency key equal (by value)
to the stored key returns the identical cached shared value (the same
reference, i.e. the same `Arc` tag) without invoking the compute function and
leaves the slot unchanged; with an unequal key it invokes the compute function
exactly once and stores the new value and the new key in the slot (returning
that newly stored value). -/
theorem use_memo_update_spec (slot : Hooks.Memo) (k : Nat) (f : Unit → Nat) (tag : Nat) :
    (slot.eq_cache = k →
      (useMemoUpdate slot k f tag).ret = slot.val ∧
      (useMemoUpdate slot k f tag).slot = slot ∧
      (useMemoUpdate slot k f tag).computeCount = 0) ∧
    (slot.eq_cache ≠ k →
      (useMemoUpdate slot k f tag).computeCount = 1 ∧
      (useMemoUpdate slot k f tag).slot = ⟨k, ⟨tag, f ()⟩⟩ ∧
      (useMemoUpdate slot k f tag).ret = (useMemoUpdate slot k f tag).slot.val) := by
  constructor
  · intro h
    simp [Hooks.useMemoUpdate, h]
  · intro h
    simp [Hooks.useMemoUpdate, h]

/-- Witness for `use_memo_update_spec`: both branches at concrete inputs. -/
theorem use_memo_update_spec_witness :
    (Hooks.useMemoUpdate ⟨5, ⟨3, 9⟩⟩ 5 (fun _ => 0) 7).ret = ⟨3, 9⟩ ∧
    (Hooks.useMemoUpdate ⟨5, ⟨3, 9⟩⟩ 6 (fun _ => 4) 7).computeCount = 1 :=
  ⟨((use_memo_update_spec ⟨5, ⟨3, 9⟩⟩ 5 (fun _ => 0) 7).1 rfl).1,
   ((use_memo_update_spec ⟨5, ⟨3, 9⟩⟩ 6 (fun _ => 4) 7).2 (by decide)).1⟩

/-- C7: on an update render, `use_effect` with a dependency key equal (by
value) to the stored key runs neither the stored cleanup nor the new setup and
leaves the effect slot unchanged. -/
theorem use_effect_unchanged_key_noop (slot : Hooks.Effect) (k : Nat) (s : ClosureId)
    (h : slot.eq_cache = some k) :
    Hooks.useEffectUpdate slot (some k) s = ⟨slot, []⟩ := by
  simp [Hooks.useEffectUpdate, Hooks.effectCondition, h]

/-- Witness for `use_effect_unchanged_key_noop`. -/
theorem use_effect_unchanged_key_noop_witness :
    Hooks.useEffectUpdate ⟨some 2, .destructor 3⟩ (some 2) 9 = ⟨⟨some 2, .destructor 3⟩, []⟩ :=
  use_effect_unchanged_key_noop ⟨some 2, .destructor 3⟩ 2 9 rfl

/-- C2, failing: mount a component whose `use_effect` has dependency key `0`
and setup closure `7`; one update render calls `use_effect` with key `1`
(unequal) and setup closure `8`; then unmount.  The full event trace shows the
first setup running at mount and its cleanup running during the update render
— but the replacement setup `8` never runs (not before unmount, not ever):
`Component::update` never executes pending effects (only `Context::mount`
does, internal.rs:387-395) and `unmount` skips `Effect`-stage slots.  The
specified behaviour — cleanup, *then the new setup is run and its cleanup
stored* — does not happen. -/
theorem changed_key_new_setup_never_runs :
    Hooks.effectLifecycleTrace (some 0) (some 1) 7 8 = [.runSetup 7, .runCleanup 7] ∧
    Hooks.HookEvent.runSetup 8 ∉ Hooks.effectLifecycleTrace (some 0) (some 1) 7 8 := by
  decide

/-- C9: `unmount` tears a node down children-before-parent: its trace is
exactly the recursive unmount of all children (unkeyed in order, then keyed)
followed by the node's own teardown — for a primitive the Bridge release of
its handle, for a component the cleanups of its still-active (`Destructor`
stage) effect slots, pending setups contributing nothing. -/
theorem unmount_children_before_parent (t : Unmount.MTree) :
    Unmount.unmountTrace t = Unmount.childTeardown t ++ Unmount.ownTeardown t := by
  cases t <;>
    simp [Unmount.unmountTrace, Unmount.childTeardown, Unmount.ownTeardown]

open CompDiff in
/-- C10: on a component-vs-component diff with matching function identity
where memo-skip does not apply, the node keeps its stored property bundle and
the render function is re-invoked with exactly that stored bundle; the new
element's bundle appears nowhere.  (With memo-skip nothing at all happens.)
Only a function-identity mismatch makes the new properties take effect, via
the full unmount + remount, whose first render receives and stores the new
bundle. -/
theorem component_diff_props_spec (old : CompDiff.CompState) (m : Bool) (nf np : Nat) :
    (old.fnId = nf → useMemoized m old.props np = false →
      (diffComponent old m nf np).1 = old ∧
      (diffComponent old m nf np).2 = [.renderCall old.fnId old.props]) ∧
    (old.fnId = nf → useMemoized m old.props np = true →
      (diffComponent old m nf np).1 = old ∧
      (diffComponent old m nf np).2 = []) ∧
    (old.fnId ≠ nf →
      (diffComponent old m nf np).1 = ⟨nf, np⟩ ∧
      (diffComponent old m nf np).2 = [.unmountOld, .renderCall nf np, .mountNew nf np]) := by
  refine ⟨?_, ?_, ?_⟩
  · intro h₁ h₂
    simp [CompDiff.diffComponent, h₁, h₂]
  · intro h₁ h₂
    simp [CompDiff.diffComponent, h₁, h₂]
  · intro h₁
    simp [CompDiff.diffComponent, h₁]

open ChildDiff in
/-- Helper for C4: the loop of `diff_children` on all-unkeyed new elements,
stated against an arbitrary reversed old unkeyed list. -/
theorem diffChildrenGo_unkeyed (ns : List ChildDiff.NewElem) :
    ∀ (our : List Nat) (ok : List (Nat × Nat)), (∀ e ∈ ns, e.key = none) →
    diffChildrenGo our ok ns =
      ((our.zip ns).map fun p => ChildOp.pairDiff p.1 p.2.payload)
      ++ ((ns.drop our.length).map fun e => ChildOp.mountNew e.payload)
      ++ ((our.drop ns.length).reverse.map ChildOp.unmountOld)
      ++ (ok.map fun p => ChildOp.unmountOld p.2) := by
  induction ns with
  | nil =>
    intro our ok _
    simp [ChildDiff.diffChildrenGo]
  | cons e rest ih =>
    intro our ok h
    have hk : e.key = none := h e (List.mem_cons_self e rest)
    have hrest : ∀ x ∈ rest, x.key = none := fun x hx => h x (List.mem_cons_of_mem e hx)
    cases our with
    | nil =>
      simp [ChildDiff.diffChildrenGo, hk, ih [] ok hrest]
    | cons o our' =>
      simp [ChildDiff.diffChildrenGo, hk, ih our' ok hrest]

open ChildDiff in
/-- C4: with all new children unkeyed, `diff_children` pairs the new elements,
processed head-to-tail, with the old unkeyed children popped from the tail
(`ou.reverse.zip ns`: the i-th new element is matched with the (n-1-i)-th old
child — last-in-first-out, reversing the correspondence whenever there is more
than one unkeyed sibling); new elements beyond the old count are freshly
mounted, and the leftover old unkeyed children (the front prefix, in order)
and all old keyed children are unmounted. -/
theorem unkeyed_lifo_matching (ou : List Nat) (ok : List (Nat × Nat))
    (ns : List ChildDiff.NewElem) (h : ∀ e ∈ ns, e.key = none) :
    diffChildrenOps ou ok ns =
      ((ou.reverse.zip ns).map fun p => ChildOp.pairDiff p.1 p.2.payload)
      ++ ((ns.drop ou.length).map fun e => ChildOp.mountNew e.payload)
      ++ ((ou.take (ou.length - ns.length)).map ChildOp.unmountOld)
      ++ (ok.map fun p => ChildOp.unmountOld p.2) := by
  rw [ChildDiff.diffChildrenOps, diffChildrenGo_unkeyed ns ou.reverse ok h,
    List.length_reverse, List.drop_reverse, List.reverse_reverse]

/-- Witness for `unkeyed_lifo_matching`: three old unkeyed children `[1, 2, 3]`
and one old keyed child against two unkeyed new elements — the first new
element pairs with old child `3`, the second with `2`, child `1` and the keyed
child are unmounted. -/
theorem unkeyed_lifo_matching_witness :
    ChildDiff.diffChildrenOps [1, 2, 3] [(5, 4)] [⟨none, 10⟩, ⟨none, 20⟩] =
      [.pairDiff 3 10, .pairDiff 2 20, .unmountOld 1, .unmountOld 4] :=
  (unkeyed_lifo_matching [1, 2, 3] [(5, 4)] [⟨none, 10⟩, ⟨none, 20⟩]
    (by decide)).trans (by decide)

/-- Witness for `component_diff_props_spec`: the update branch keeps the
stored props, the replacement branch installs the new ones. -/
theorem component_diff_props_spec_witness :
    (CompDiff.diffComponent ⟨1, 10⟩ false 1 20).1 = ⟨1, 10⟩ ∧
    (CompDiff.diffComponent ⟨1, 10⟩ false 2 20).1 = ⟨2, 20⟩ :=
  ⟨((component_diff_props_spec ⟨1, 10⟩ false 1 20).1 rfl (by decide)).1,
   ((component_diff_props_spec ⟨1, 10⟩ false 2 20).2.2 (by decide)).1⟩

namespace Dispatch

/-! Auxiliary lemmas about the dispatcher model. -/

@[simp] theorem rootId_node (i : MountedId) (c : Option (List (Arc Nat)))
    (cs : List DTree) : (DTree.node i c cs).rootId = i := rfl

@[simp] theorem comp_node (i : MountedId) (c : Option (List (Arc Nat)))
    (cs : List DTree) : (DTree.node i c cs).comp = c := rfl

@[simp] theorem children_node (i : MountedId) (c : Option (List (Arc Nat)))
    (cs : List DTree) : (DTree.node i c cs).children = cs := rfl

@[simp] theorem idsL_nil : idsL [] = [] := by
  simp [idsL]

@[simp] theorem idsL_cons (i : MountedId) (c : Option (List (Arc Nat)))
    (cs rest : List DTree) :
    idsL (.node i c cs :: rest) = i :: (idsL cs ++ idsL rest) := by
  simp [idsL]

theorem allIds_eq (t : DTree) : allIds t = t.rootId :: idsL t.children := rfl

theorem walkL_nil (rf : Finset Nat × Finset Nat) : walkL [] rf = rf := by
  simp [walkL]

theorem walkL_cons (i : MountedId) (c : Option (List (Arc Nat)))
    (cs rest : List DTree) (rf : Finset Nat × Finset Nat) :
    walkL (.node i c cs :: rest) rf =
      if i ∈ rf.2 then walkL rest (rf.1.erase i, rf.2)
      else walkL rest (walkL cs (rf.1.erase i, insert i rf.2)) := by
  simp [walkL]

theorem mem_idsL_of_mem {c : DTree} {cs : List DTree} (hc : c ∈ cs) :
    ∀ x ∈ allIds c, x ∈ idsL cs := by
  induction cs with
  | nil => cases hc
  | cons hd tl ih =>
    cases hd with
    | node i co hcs =>
      intro x hx
      rcases List.mem_cons.mp hc with hceq | hmem
      · subst hceq
        rw [allIds_eq] at hx
        simp only [idsL_cons, rootId_node, children_node] at hx ⊢
        rcases List.mem_cons.mp hx with h | h
        · exact List.mem_cons.mpr (Or.inl h)
        · exact List.mem_cons.mpr (Or.inr (List.mem_append_left _ h))
      · have := ih hmem x hx
        simp only [idsL_cons]
        exact List.mem_cons_of_mem _ (List.mem_append_right _ this)

theorem rootId_mem_idsL {c : DTree} {cs : List DTree} (hc : c ∈ cs) :
    c.rootId ∈ idsL cs :=
  mem_idsL_of_mem hc _ (by rw [allIds_eq]; exact List.mem_cons_self _ _)

theorem pathAt_allIds_subset {t s : DTree} {p : List Nat} (h : PathAt t p s) :
    ∀ x ∈ allIds s, x ∈ allIds t := by
  induction h with
  | refl t => exact fun x hx => hx
  | step hc h ih =>
    intro x hx
    rw [allIds_eq]
    exact List.mem_cons_of_mem _ (mem_idsL_of_mem hc x (ih x hx))

theorem pathAt_below {t s : DTree} {p : List Nat} (h : PathAt t p s) (hp : p ≠ []) :
    ∀ x ∈ allIds s, x ∈ idsL t.children := by
  cases h with
  | refl => exact absurd rfl hp
  | step hc h => exact fun x hx => mem_idsL_of_mem hc x (pathAt_allIds_subset h x hx)

theorem pathAt_mem_ids {t s : DTree} {p : List Nat} (h : PathAt t p s) :
    ∀ x ∈ p, x ∈ idsL t.children := by
  induction h with
  | refl t => intro x hx; cases hx
  | step hc h ih =>
    intro x hx
    rcases List.mem_cons.mp hx with heq | hx'
    · subst heq; exact rootId_mem_idsL hc
    · exact mem_idsL_of_mem hc x
        (by rw [allIds_eq]; exact List.mem_cons_of_mem _ (ih x hx'))

theorem nodup_allIds_of_mem {cs : List DTree} (hnd : (idsL cs).Nodup)
    {c : DTree} (hc : c ∈ cs) : (allIds c).Nodup := by
  induction cs with
  | nil => cases hc
  | cons hd tl ih =>
    cases hd with
    | node i co hcs =>
      rw [idsL_cons, List.nodup_cons, List.nodup_append] at hnd
      rcases List.mem_cons.mp hc with hceq | hmem
      · subst hceq
        rw [allIds_eq, List.nodup_cons]
        refine ⟨fun hmem2 => hnd.1 (List.mem_append_left _ hmem2), hnd.2.1⟩
      · exact ih hnd.2.2.1 hmem

theorem nodup_below {t : DTree} (hnd : (allIds t).Nodup) : (idsL t.children).Nodup :=
  (List.nodup_cons.mp (by rw [allIds_eq] at hnd; exact hnd)).2

theorem root_not_below {t : DTree} (hnd : (allIds t).Nodup) :
    t.rootId ∉ idsL t.children :=
  (List.nodup_cons.mp (by rw [allIds_eq] at hnd; exact hnd)).1

theorem pathAt_not_below_s {t s : DTree} {p : List Nat} (h : PathAt t p s) :
    (allIds t).Nodup → ∀ x ∈ p, x ∉ idsL s.children := by
  induction h with
  | refl t => intro _ x hx; cases hx
  | step hc h ih =>
    intro hnd x hx
    have hndc := nodup_allIds_of_mem (nodup_below hnd) hc
    rcases List.mem_cons.mp hx with heq | hx'
    · subst heq
      cases h with
      | refl => exact root_not_below hndc
      | step hc₂ h₂ =>
        intro hmem
        exact root_not_below hndc
          (pathAt_below (PathAt.step hc₂ h₂) (by simp) _
            (by rw [allIds_eq]; exact List.mem_cons_of_mem _ hmem))
    · exact ih hndc x hx'

theorem walkL_roots_subset : ∀ (cs : List DTree) (rf : Finset Nat × Finset Nat),
    (walkL cs rf).1 ⊆ rf.1 := by
  intro cs rf
  induction cs, rf using walkL.induct with
  | case1 rf => rw [walkL_nil]
  | case2 i co cs rest rf r₁ hmem =>
    rename_i ih
    rw [walkL_cons, if_pos hmem]
    exact ih.trans (Finset.erase_subset _ _)
  | case3 i co cs rest rf r₁ hmem ihcs1 ihcs2 =>
    rename_i ihrest
    rw [walkL_cons, if_neg hmem]
    exact ihrest.trans (ihcs2.trans (Finset.erase_subset _ _))

theorem walkL_roots_lower : ∀ (cs : List DTree) (rf : Finset Nat × Finset Nat),
    ∀ x ∈ rf.1, x ∉ idsL cs → x ∈ (walkL cs rf).1 := by
  intro cs rf
  induction cs, rf using walkL.induct with
  | case1 rf => intro x hx _; rw [walkL_nil]; exact hx
  | case2 i co cs rest rf r₁ hmem =>
    rename_i ih
    intro x hx hnotin
    rw [idsL_cons] at hnotin
    rw [walkL_cons, if_pos hmem]
    have hxi : x ≠ i := fun heq => hnotin (heq ▸ List.mem_cons_self _ _)
    refine ih x (Finset.mem_erase.mpr ⟨hxi, hx⟩) fun hr => hnotin ?_
    exact List.mem_cons_of_mem _ (List.mem_append_right _ hr)
  | case3 i co cs rest rf r₁ hmem ihcs1 ihcs2 =>
    rename_i ihrest
    intro x hx hnotin
    rw [idsL_cons] at hnotin
    rw [walkL_cons, if_neg hmem]
    have hxi : x ≠ i := fun heq => hnotin (heq ▸ List.mem_cons_self _ _)
    have hxcs : x ∉ idsL cs := fun hr =>
      hnotin (List.mem_cons_of_mem _ (List.mem_append_left _ hr))
    have hxrest : x ∉ idsL rest := fun hr =>
      hnotin (List.mem_cons_of_mem _ (List.mem_append_right _ hr))
    exact ihrest x (ihcs2 x (Finset.mem_erase.mpr ⟨hxi, hx⟩) hxcs) hxrest

theorem walkL_flag_lower : ∀ (cs : List DTree) (rf : Finset Nat × Finset Nat),
    rf.2 ⊆ (walkL cs rf).2 := by
  intro cs rf
  induction cs, rf using walkL.induct with
  | case1 rf => rw [walkL_nil]
  | case2 i co cs rest rf r₁ hmem =>
    rename_i ih
    rw [walkL_cons, if_pos hmem]
    exact ih
  | case3 i co cs rest rf r₁ hmem ihcs1 ihcs2 =>
    rename_i ihrest
    rw [walkL_cons, if_neg hmem]
    exact ((Finset.subset_insert _ _).trans ihcs2).trans ihrest

theorem walkL_flag_upper : ∀ (cs : List DTree) (rf : Finset Nat × Finset Nat),
    ∀ x ∈ (walkL cs rf).2, x ∈ rf.2 ∨ x ∈ idsL cs := by
  intro cs rf
  induction cs, rf using walkL.induct with
  | case1 rf => intro x hx; rw [walkL_nil] at hx; exact Or.inl hx
  | case2 i co cs rest rf r₁ hmem =>
    rename_i ih
    intro x hx
    rw [walkL_cons, if_pos hmem] at hx
    rcases ih x hx with h | h
    · exact Or.inl h
    · exact Or.inr
        (by rw [idsL_cons]; exact List.mem_cons_of_mem _ (List.mem_append_right _ h))
  | case3 i co cs rest rf r₁ hmem ihcs1 ihcs2 =>
    rename_i ihrest
    intro x hx
    rw [walkL_cons, if_neg hmem] at hx
    rw [idsL_cons]
    rcases ihrest x hx with h | h
    · rcases ihcs2 x h with h' | h'
      · rcases Finset.mem_insert.mp h' with h'' | h''
        · exact Or.inr (h'' ▸ List.mem_cons_self _ _)
        · exact Or.inl h''
      · exact Or.inr (List.mem_cons_of_mem _ (List.mem_append_left _ h'))
    · exact Or.inr (List.mem_cons_of_mem _ (List.mem_append_right _ h))

theorem walkL_full : ∀ (cs : List DTree) (rf : Finset Nat × Finset Nat),
    (idsL cs).Nodup → (∀ x ∈ idsL cs, x ∉ rf.2) →
    walkL cs rf = (rf.1 \ (idsL cs).toFinset, rf.2 ∪ (idsL cs).toFinset) := by
  intro cs rf
  induction cs, rf using walkL.induct with
  | case1 rf => intro _ _; simp [walkL_nil]
  | case2 i co cs rest rf r₁ hmem =>
    rename_i ih
    intro _ hdis
    exact absurd hmem (hdis i (by rw [idsL_cons]; exact List.mem_cons_self _ _))
  | case3 i co cs rest rf r₁ hmem ihcs1 ihcs2 =>
    rename_i ihrest
    intro hnd hdis
    have hr : r₁ = rf.1.erase i := rfl
    rw [hr] at ihrest
    rw [idsL_cons, List.nodup_cons, List.nodup_append] at hnd
    obtain ⟨hi, hnd_cs, hnd_tl, hdisj⟩ := hnd
    have hi_cs : i ∉ idsL cs := fun h => hi (List.mem_append_left _ h)
    have hi_rest : i ∉ idsL rest := fun h => hi (List.mem_append_right _ h)
    have hdis_cs : ∀ x ∈ idsL cs, x ∉ rf.2 := fun x hx =>
      hdis x (by rw [idsL_cons]; exact List.mem_cons_of_mem _ (List.mem_append_left _ hx))
    have hdis_rest : ∀ x ∈ idsL rest, x ∉ rf.2 := fun x hx =>
      hdis x (by rw [idsL_cons]; exact List.mem_cons_of_mem _ (List.mem_append_right _ hx))
    rw [walkL_cons, if_neg hmem]
    have hinner := ihcs2 hnd_cs (by
      intro x hx
      simp only [Finset.mem_insert]
      push_neg
      exact ⟨fun heq => hi_cs (heq ▸ hx), hdis_cs x hx⟩)
    rw [hinner] at ihrest ⊢
    have houter := ihrest hnd_tl (by
      intro x hx
      simp only [Finset.mem_union, Finset.mem_insert, List.mem_toFinset]
      push_neg
      exact ⟨⟨fun heq => hi_rest (heq ▸ hx), hdis_rest x hx⟩, fun hc => hdisj hc hx⟩)
    rw [houter]
    refine Prod.ext ?_ ?_
    · ext x
      simp only [Finset.mem_sdiff, Finset.mem_erase, List.mem_toFinset, idsL_cons,
        List.mem_cons, List.mem_append]
      tauto
    · ext x
      simp only [Finset.mem_union, Finset.mem_insert, List.mem_toFinset, idsL_cons,
        List.mem_cons, List.mem_append]
      tauto

theorem findL_nil (i : Nat) : findL [] i = none := by
  simp [findL]

theorem findL_cons_self (j : MountedId) (c : Option (List (Arc Nat)))
    (cs rest : List DTree) : findL (.node j c cs :: rest) j = some (.node j c cs) := by
  simp [findL]

theorem findL_cons_ne_some {j i : Nat} (hne : j ≠ i)
    {c : Option (List (Arc Nat))} {cs rest : List DTree} {s : DTree}
    (hs : findL cs i = some s) : findL (.node j c cs :: rest) i = some s := by
  simp [findL, hne, hs]

theorem findL_cons_ne_none {j i : Nat} (hne : j ≠ i)
    {c : Option (List (Arc Nat))} {cs rest : List DTree}
    (hn : findL cs i = none) : findL (.node j c cs :: rest) i = findL rest i := by
  simp [findL, hne, hn]

theorem findL_none : ∀ (cs : List DTree) (i : Nat), i ∉ idsL cs → findL cs i = none := by
  intro cs i
  induction cs, i using findL.induct with
  | case1 i => intro _; exact findL_nil i
  | case2 c cs rest i =>
    intro h
    exact absurd (by rw [idsL_cons]; exact List.mem_cons_self _ _) h
  | case3 j c cs rest i hne s hs ih =>
    intro h
    have hcs : i ∉ idsL cs := fun hx =>
      h (by rw [idsL_cons]; exact List.mem_cons_of_mem _ (List.mem_append_left _ hx))
    rw [ih hcs] at hs
    cases hs
  | case4 j c cs rest i hne hn ihcs ihrest =>
    intro h
    rw [findL_cons_ne_none hne hn]
    exact ihrest fun hx =>
      h (by rw [idsL_cons]; exact List.mem_cons_of_mem _ (List.mem_append_right _ hx))

theorem find_self (t : DTree) : find t t.rootId = some t := by
  simp [find]

theorem findL_of_path : ∀ (n : Nat) (cs : List DTree) (c s : DTree) (p : List Nat),
    (idsL cs).length ≤ n → (idsL cs).Nodup → c ∈ cs → PathAt c p s →
    findL cs s.rootId = some s := by
  intro n
  induction n with
  | zero =>
    intro cs c s p hlen _ hc _
    cases cs with
    | nil => cases hc
    | cons hd tl =>
      cases hd with
      | node i co hcs =>
        rw [idsL_cons] at hlen
        simp at hlen
  | succ n ih =>
    intro cs c s p hlen hnd hc hpath
    cases cs with
    | nil => cases hc
    | cons hd tl =>
      cases hd with
      | node i co hcs =>
        rw [idsL_cons] at hlen hnd
        have hlen_cs : (idsL hcs).length ≤ n := by
          simp only [List.length_cons, List.length_append] at hlen; omega
        have hlen_tl : (idsL tl).length ≤ n := by
          simp only [List.length_cons, List.length_append] at hlen; omega
        rw [List.nodup_cons, List.nodup_append] at hnd
        obtain ⟨hi, hnd_cs, hnd_tl, hdisj⟩ := hnd
        have hi_cs : i ∉ idsL hcs := fun h => hi (List.mem_append_left _ h)
        have hi_tl : i ∉ idsL tl := fun h => hi (List.mem_append_right _ h)
        rcases List.mem_cons.mp hc with hceq | hctl
        · subst hceq
          cases hpath with
          | refl => exact findL_cons_self i co hcs tl
          | step hc₂ hpath₂ =>
            rename_i c₂ p'
            have hsm : s.rootId ∈ idsL hcs :=
              mem_idsL_of_mem (show c₂ ∈ hcs by simpa using hc₂) _
                (pathAt_allIds_subset hpath₂ _
                  (by rw [allIds_eq]; exact List.mem_cons_self _ _))
            have hne : i ≠ s.rootId := fun heq => hi_cs (heq ▸ hsm)
            exact findL_cons_ne_some hne
              (ih hcs c₂ s p' hlen_cs hnd_cs (by simpa using hc₂) hpath₂)
        · have hsm : s.rootId ∈ idsL tl :=
            mem_idsL_of_mem hctl _
              (pathAt_allIds_subset hpath _
                (by rw [allIds_eq]; exact List.mem_cons_self _ _))
          have hne : i ≠ s.rootId := fun heq => hi_tl (heq ▸ hsm)
          have hnone : findL hcs s.rootId = none :=
            findL_none hcs _ (fun hx => hdisj hx hsm)
          rw [findL_cons_ne_none hne hnone]
          exact ih tl c s p hlen_tl hnd_tl hctl hpath

theorem find_of_pathAt {t s : DTree} {p : List Nat}
    (hnd : (allIds t).Nodup) (h : PathAt t p s) : find t s.rootId = some s := by
  cases h with
  | refl => exact find_self t
  | step hc h2 =>
    rename_i c p'
    have hsm : s.rootId ∈ idsL t.children :=
      mem_idsL_of_mem hc _
        (pathAt_allIds_subset h2 _ (by rw [allIds_eq]; exact List.mem_cons_self _ _))
    have hne : t.rootId ≠ s.rootId := fun heq => root_not_below hnd (heq ▸ hsm)
    rw [find, if_neg hne]
    exact findL_of_path (idsL t.children).length t.children c s p' le_rfl
      (nodup_below hnd) hc h2

theorem pathAt_nodup {t s : DTree} {p : List Nat}
    (hnd : (allIds t).Nodup) (h : PathAt t p s) : (allIds s).Nodup := by
  induction h with
  | refl t => exact hnd
  | step hc h2 ih => exact ih (nodup_allIds_of_mem (nodup_below hnd) hc)

theorem findL_pathAt : ∀ (cs : List DTree) (i : Nat) {sub : DTree},
    findL cs i = some sub → ∃ c ∈ cs, ∃ p, PathAt c p sub := by
  intro cs i
  induction cs, i using findL.induct with
  | case1 i => intro sub h; rw [findL_nil] at h; cases h
  | case2 c cs rest i =>
    intro sub h
    rw [findL_cons_self] at h
    cases h
    exact ⟨_, List.mem_cons_self _ _, [], PathAt.refl _⟩
  | case3 j c cs rest i hne s hs ih =>
    intro sub h
    rw [findL_cons_ne_some hne hs] at h
    cases h
    obtain ⟨c', hc', p, hp⟩ := ih hs
    exact ⟨_, List.mem_cons_self _ _, c'.rootId :: p,
      PathAt.step (by simpa using hc') hp⟩
  | case4 j c cs rest i hne hn ihcs ihrest =>
    intro sub h
    rw [findL_cons_ne_none hne hn] at h
    obtain ⟨c', hc', p, hp⟩ := ihrest h
    exact ⟨c', List.mem_cons_of_mem _ hc', p, hp⟩

theorem find_pathAt {t sub : DTree} {i : Nat} (h : find t i = some sub) :
    ∃ p, PathAt t p sub := by
  rw [find] at h
  by_cases heq : t.rootId = i
  · rw [if_pos heq] at h
    cases h
    exact ⟨[], PathAt.refl t⟩
  · rw [if_neg heq] at h
    obtain ⟨c, hc, p, hp⟩ := findL_pathAt t.children i h
    exact ⟨c.rootId :: p, PathAt.step hc hp⟩

theorem find_nodup {t sub : DTree} {i : Nat}
    (hnd : (allIds t).Nodup) (h : find t i = some sub) : (allIds sub).Nodup := by
  obtain ⟨p, hp⟩ := find_pathAt h
  exact pathAt_nodup hnd hp

theorem findL_rootId : ∀ (cs : List DTree) (i : Nat) {sub : DTree},
    findL cs i = some sub → sub.rootId = i := by
  intro cs i
  induction cs, i using findL.induct with
  | case1 i => intro sub h; rw [findL_nil] at h; cases h
  | case2 c cs rest i =>
    intro sub h
    rw [findL_cons_self] at h
    cases h
    rfl
  | case3 j c cs rest i hne s hs ih =>
    intro sub h
    rw [findL_cons_ne_some hne hs] at h
    cases h
    exact ih hs
  | case4 j c cs rest i hne hn ihcs ihrest =>
    intro sub h
    rw [findL_cons_ne_none hne hn] at h
    exact ihrest h

theorem find_rootId {t sub : DTree} {i : Nat} (h : find t i = some sub) :
    sub.rootId = i := by
  rw [find] at h
  by_cases heq : t.rootId = i
  · rw [if_pos heq] at h
    cases h
    exact heq
  · rw [if_neg heq] at h
    exact findL_rootId t.children i h

@[simp] theorem mapL_nil (g : Nat → List (Arc Nat) → List (Arc Nat)) :
    mapL g [] = [] := by
  simp [mapL]

@[simp] theorem mapL_cons (g : Nat → List (Arc Nat) → List (Arc Nat))
    (i : MountedId) (c : Option (List (Arc Nat))) (cs rest : List DTree) :
    mapL g (.node i c cs :: rest) =
      .node i (c.map (g i)) (mapL g cs) :: mapL g rest := by
  simp [mapL]

theorem mapNode_node (g : Nat → List (Arc Nat) → List (Arc Nat))
    (i : MountedId) (c : Option (List (Arc Nat))) (cs : List DTree) :
    mapNode g (.node i c cs) = .node i (c.map (g i)) (mapL g cs) := rfl

theorem rootId_mapNode (g : Nat → List (Arc Nat) → List (Arc Nat)) (t : DTree) :
    (mapNode g t).rootId = t.rootId := by
  cases t
  rw [mapNode_node]
  rfl

theorem comp_mapNode (g : Nat → List (Arc Nat) → List (Arc Nat)) (t : DTree) :
    (mapNode g t).comp = t.comp.map (g t.rootId) := by
  cases t
  rw [mapNode_node]
  rfl

theorem children_mapNode (g : Nat → List (Arc Nat) → List (Arc Nat)) (t : DTree) :
    (mapNode g t).children = mapL g t.children := by
  cases t
  rw [mapNode_node]
  rfl

theorem findL_mapL (g : Nat → List (Arc Nat) → List (Arc Nat)) :
    ∀ (cs : List DTree) (i : Nat),
    findL (mapL g cs) i = (findL cs i).map (mapNode g) := by
  intro cs i
  induction cs, i using findL.induct with
  | case1 i => simp [findL_nil]
  | case2 c cs rest i =>
    rw [mapL_cons, findL_cons_self, findL_cons_self]
    rfl
  | case3 j c cs rest i hne s hs ih =>
    have hmap : findL (mapL g cs) i = some (mapNode g s) := by
      rw [ih, hs]
      rfl
    rw [mapL_cons, findL_cons_ne_some hne hmap, findL_cons_ne_some hne hs]
    rfl
  | case4 j c cs rest i hne hn ihcs ihrest =>
    have hmap : findL (mapL g cs) i = none := by
      rw [ihcs, hn]
      rfl
    rw [mapL_cons, findL_cons_ne_none hne hmap, findL_cons_ne_none hne hn, ihrest]

theorem find_mapNode (g : Nat → List (Arc Nat) → List (Arc Nat)) (t : DTree) (i : Nat) :
    find (mapNode g t) i = (find t i).map (mapNode g) := by
  cases t with
  | node j c cs =>
    by_cases h : j = i
    · subst h
      rw [mapNode_node]
      simp [find, mapNode_node]
    · rw [mapNode_node, find, find]
      simp only [rootId_node, if_neg h]
      exact findL_mapL g cs i

theorem idsL_mapL (g : Nat → List (Arc Nat) → List (Arc Nat)) (cs : List DTree) :
    idsL (mapL g cs) = idsL cs := by
  refine mapL.induct g (fun l => idsL (mapL g l) = idsL l) (by simp) ?_ cs
  intro i co hcs rest ih1 ih2
  rw [mapL_cons, idsL_cons, idsL_cons, ih1, ih2]

theorem walkL_mapL (g : Nat → List (Arc Nat) → List (Arc Nat)) :
    ∀ (cs : List DTree) (rf : Finset Nat × Finset Nat),
    walkL (mapL g cs) rf = walkL cs rf := by
  intro cs rf
  induction cs, rf using walkL.induct with
  | case1 rf => rw [mapL_nil]
  | case2 i co cs rest rf r₁ hmem =>
    rename_i ih
    rw [mapL_cons, walkL_cons, walkL_cons, if_pos hmem, if_pos hmem, ih]
  | case3 i co cs rest rf r₁ hmem ihcs1 ihcs2 =>
    rename_i ihrest
    rw [mapL_cons, walkL_cons, walkL_cons, if_neg hmem, if_neg hmem, ihcs2, ihrest]

theorem walkL_removes : ∀ (n : Nat) (cs : List DTree) (rf : Finset Nat × Finset Nat)
    (c s : DTree) (p : List Nat),
    (idsL cs).length ≤ n →
    (idsL cs).Nodup → c ∈ cs → PathAt c p s →
    c.rootId ∉ rf.2 → (∀ x ∈ p, x ∉ rf.2) →
    s.rootId ∉ (walkL cs rf).1 := by
  intro n
  induction n with
  | zero =>
    intro cs rf c s p hlen _ hc _ _ _
    cases cs with
    | nil => cases hc
    | cons hd tl =>
      cases hd with
      | node i co hcs =>
        rw [idsL_cons] at hlen
        simp at hlen
  | succ n ih =>
    intro cs rf c s p hlen hnd hc hpath hcf hpf
    cases cs with
    | nil => cases hc
    | cons hd tl =>
      cases hd with
      | node i co hcs =>
        rw [idsL_cons] at hlen hnd
        have hlen_cs : (idsL hcs).length ≤ n := by
          simp only [List.length_cons, List.length_append] at hlen; omega
        have hlen_tl : (idsL tl).length ≤ n := by
          simp only [List.length_cons, List.length_append] at hlen; omega
        rw [List.nodup_cons, List.nodup_append] at hnd
        obtain ⟨hi, hnd_cs, hnd_tl, hdisj⟩ := hnd
        have hi_cs : i ∉ idsL hcs := fun h => hi (List.mem_append_left _ h)
        have hi_tl : i ∉ idsL tl := fun h => hi (List.mem_append_right _ h)
        rw [walkL_cons]
        rcases List.mem_cons.mp hc with hceq | hctl
        · subst hceq
          have hcf' : i ∉ rf.2 := by simpa using hcf
          rw [if_neg hcf']
          cases hpath with
          | refl =>
            have h1 : i ∉ rf.1.erase i := Finset.not_mem_erase _ _
            have h2 := walkL_roots_subset hcs (rf.1.erase i, insert i rf.2)
            have h3 := walkL_roots_subset tl (walkL hcs (rf.1.erase i, insert i rf.2))
            simp only [rootId_node]
            exact fun hmem => h1 (h2 (h3 hmem))
          | step hc₂ hpath₂ =>
            rename_i c₂ p'
            have hkey : s.rootId ∉ (walkL hcs (rf.1.erase i, insert i rf.2)).1 := by
              apply ih hcs (rf.1.erase i, insert i rf.2) c₂ s p' hlen_cs hnd_cs
                (by simpa using hc₂) hpath₂
              · show c₂.rootId ∉ insert i rf.2
                simp only [Finset.mem_insert]
                push_neg
                refine ⟨?_, hpf _ (List.mem_cons_self _ _)⟩
                intro heq
                exact hi_cs (heq ▸ rootId_mem_idsL (by simpa using hc₂))
              · intro x hx
                show x ∉ insert i rf.2
                simp only [Finset.mem_insert]
                push_neg
                refine ⟨?_, hpf x (List.mem_cons_of_mem _ hx)⟩
                intro heq
                have hx1 : x ∈ idsL c₂.children := pathAt_mem_ids hpath₂ x hx
                have hx2 : x ∈ idsL hcs :=
                  mem_idsL_of_mem (show c₂ ∈ hcs by simpa using hc₂) x
                    (by rw [allIds_eq]; exact List.mem_cons_of_mem _ hx1)
                exact hi_cs (heq ▸ hx2)
            exact fun hmem => hkey (walkL_roots_subset tl _ hmem)
        · by_cases hmem : i ∈ rf.2
          · rw [if_pos hmem]
            exact ih tl (rf.1.erase i, rf.2) c s p hlen_tl hnd_tl hctl hpath hcf hpf
          · rw [if_neg hmem]
            have hupper := walkL_flag_upper hcs (rf.1.erase i, insert i rf.2)
            have havoid : ∀ y, y ∈ idsL tl → y ∉ rf.2 →
                y ∉ (walkL hcs (rf.1.erase i, insert i rf.2)).2 := by
              intro y hy hyf hyW
              rcases hupper y hyW with h | h
              · rcases Finset.mem_insert.mp h with heq | hin
                · exact hi_tl (heq ▸ hy)
                · exact hyf hin
              · exact hdisj h hy
            apply ih tl (walkL hcs (rf.1.erase i, insert i rf.2)) c s p hlen_tl hnd_tl
              hctl hpath
            · exact havoid _ (rootId_mem_idsL hctl) hcf
            · intro x hx
              refine havoid x ?_ (hpf x hx)
              exact mem_idsL_of_mem hctl x
                (by rw [allIds_eq]; exact List.mem_cons_of_mem _ (pathAt_mem_ids hpath x hx))

theorem exbind_ok {ε α β : Type} (a : α) (f : α → Except ε β) :
    (Except.ok a >>= f) = f a := rfl

theorem exbind_error {ε α β : Type} (e : ε) (f : α → Except ε β) :
    ((Except.error e : Except ε α) >>= f) = .error e := rfl

theorem processOne_missing {t : DTree} {m : Hooks.Msg} (rf : Finset Nat × Finset Nat)
    (hfind : find t m.targetComponent = none) :
    processOne t rf m = .error .targetMissing := by
  simp [processOne, hfind]

theorem processOne_mut {t : DTree} {m : Hooks.Msg} {sub : DTree}
    {slots : List (Arc Nat)} {ts : Nat} (rf : Finset Nat × Finset Nat)
    (hfind : find t m.targetComponent = some sub)
    (hcomp : sub.comp = some slots)
    (hts : m.targetState = some ts) (hlen : ts < slots.length)
    (hflag : m.targetComponent ∉ rf.2) :
    processOne t rf m = .ok (updateState t m.targetComponent ts m.f,
      walkL sub.children (insert m.targetComponent rf.1, rf.2)) := by
  simp [processOne, hfind, hcomp, hts, hlen, hflag]

theorem drainMsgs_one {t t₁ : DTree} {r₁ f₁ : Finset Nat} {m : Hooks.Msg}
    (h : processOne t (∅, ∅) m = .ok (t₁, r₁, f₁)) :
    drainMsgs t [m] = .ok (t₁, r₁, f₁) := by
  simp only [drainMsgs, List.foldlM_cons, List.foldlM_nil, h, exbind_ok]
  rfl

theorem drainMsgs_two {t t₁ t₂ : DTree} {r₁ f₁ r₂ f₂ : Finset Nat}
    {m1 m2 : Hooks.Msg}
    (h1 : processOne t (∅, ∅) m1 = .ok (t₁, r₁, f₁))
    (h2 : processOne t₁ (r₁, f₁) m2 = .ok (t₂, r₂, f₂)) :
    drainMsgs t [m1, m2] = .ok (t₂, r₂, f₂) := by
  simp only [drainMsgs, List.foldlM_cons, List.foldlM_nil, h1, exbind_ok]
  simp only [h2, exbind_ok]
  rfl

theorem renderRoots_single {t : DTree} {r : Nat} {sub : DTree}
    {slots : List (Arc Nat)}
    (hfind : find t r = some sub) (hcomp : sub.comp = some slots) :
    renderRoots t [r] = .ok [.rerender r] := by
  simp only [renderRoots, hfind, hcomp]
  rfl

theorem processDrain_eq {t : DTree} {msgs : List Hooks.Msg} {t' : DTree}
    {roots flagged : Finset Nat} {evs : List REvent}
    (h : drainMsgs t msgs = .ok (t', roots, flagged))
    (h2 : renderRoots t' (roots.sort (· ≤ ·)) = .ok evs) :
    processDrain t msgs = .ok (t', evs) := by
  simp only [processDrain, h, exbind_ok, h2]
  rfl

theorem find_updateState (t : DTree) (id ts : Nat) (f : Nat → Nat) {i : Nat}
    {sub : DTree} (h : find t i = some sub) :
    find (updateState t id ts f) i = some (updateState sub id ts f) := by
  simp only [updateState]
  rw [find_mapNode, h]
  rfl

theorem rootId_updateState (t : DTree) (id ts : Nat) (f : Nat → Nat) :
    (updateState t id ts f).rootId = t.rootId := by
  simp only [updateState]
  exact rootId_mapNode _ t

theorem comp_updateState_self {sub : DTree} {id : Nat} {slots : List (Arc Nat)}
    (hroot : sub.rootId = id) (hcomp : sub.comp = some slots) (ts : Nat) (f : Nat → Nat) :
    (updateState sub id ts f).comp =
      some (slots.modify (fun a => ⟨a.tag, f a.val⟩) ts) := by
  simp only [updateState]
  rw [comp_mapNode, hcomp, hroot]
  simp

theorem comp_updateState_other {t : DTree} {id : Nat} {slots : List (Arc Nat)}
    (hne : t.rootId ≠ id) (hcomp : t.comp = some slots) (ts : Nat) (f : Nat → Nat) :
    (updateState t id ts f).comp = some slots := by
  simp only [updateState]
  rw [comp_mapNode, hcomp]
  simp [hne]

theorem children_updateState_walk (t : DTree) (id ts : Nat) (f : Nat → Nat)
    (rf : Finset Nat × Finset Nat) :
    walkL (updateState t id ts f).children rf = walkL t.children rf := by
  simp only [updateState]
  rw [children_mapNode]
  exact walkL_mapL _ t.children rf

end Dispatch

open Dispatch in
/-- C1, failing: a mutation message whose target node is not (or no longer)
mounted makes `process_messages` panic instead of silently dropping the
message: `self.tree.get_mut(&resolver.target_component).unwrap()`
(internal.rs:246-252) unwraps `None`.  Modelled: pumping a tree consisting of
one component node `0` with a message addressed to the absent node `1` returns
the `targetMissing` panic — the pump aborts, it does not continue. -/
theorem unmounted_target_message_panics :
    processDrain (.node 0 (some [⟨0, 0⟩]) [])
      [{ f := fun n => n + 1, targetComponent := 1, targetState := some 0 }] =
      .error .targetMissing := by
  have hfind : find (DTree.node 0 (some [⟨0, 0⟩]) []) (1 : Nat) = none := by
    simp [find, findL_nil]
  have h1 := processOne_missing (t := .node 0 (some [⟨0, 0⟩]) [])
    (m := { f := fun n => n + 1, targetComponent := 1, targetState := some 0 })
    (∅, ∅) hfind
  simp only [processDrain, drainMsgs, List.foldlM_cons, h1, exbind_error]

open Hooks Dispatch in
/-- C8: a `Setter` call never mutates the stored state value at the call
site — it only appends one message carrying the owning node id and slot index
to the queue, leaving the tree untouched; `use_state` on an update render
returns the existing shared value unchanged (same `Arc`); and the stored value
changes exactly when the Dispatcher drains that message during a pump, which
applies the mutation to the addressed slot (and re-renders the owning node). -/
theorem setter_deferred_mutation (t sub : DTree) (slots : List (Arc Nat))
    (id sel : Nat) (f : Nat → Nat) (st : SysState)
    (hnd : (allIds t).Nodup)
    (hfind : find t id = some sub) (hcomp : sub.comp = some slots)
    (hlen : sel < slots.length) :
    setterSend ⟨id, sel⟩ f st =
      ⟨st.tree, st.queue ++ [{ f := f, targetComponent := id, targetState := some sel }]⟩ ∧
    useStateUpdate slots sel id = some (slots.get ⟨sel, hlen⟩, ⟨id, sel⟩) ∧
    processDrain t [{ f := f, targetComponent := id, targetState := some sel }] =
      .ok (updateState t id sel f, [.rerender id]) := by
  refine ⟨rfl, ?_, ?_⟩
  · simp [useStateUpdate, List.get?_eq_get hlen]
  · have hroot : sub.rootId = id := find_rootId hfind
    have hndsub : (allIds sub).Nodup := find_nodup hnd hfind
    have h1 := processOne_mut
      (m := { f := f, targetComponent := id, targetState := some sel })
      (∅, ∅) hfind hcomp rfl hlen (Finset.not_mem_empty id)
    have hwalk := walkL_full sub.children (insert id ∅, ∅) (nodup_below hndsub)
      (fun x _ => Finset.not_mem_empty x)
    rw [hwalk] at h1
    have hid_not : id ∉ (idsL sub.children).toFinset := by
      rw [List.mem_toFinset]
      exact hroot ▸ root_not_below hndsub
    have hroots : insert id (∅ : Finset Nat) \ (idsL sub.children).toFinset = {id} := by
      ext x
      simp only [Finset.mem_sdiff, Finset.mem_insert, Finset.not_mem_empty, or_false,
        Finset.mem_singleton]
      exact ⟨fun hx => hx.1, fun hx => ⟨hx, fun hmem => hid_not (hx ▸ hmem)⟩⟩
    have hflag : (∅ : Finset Nat) ∪ (idsL sub.children).toFinset =
        (idsL sub.children).toFinset := Finset.empty_union _
    rw [hroots, hflag] at h1
    have hfind2 : find (updateState t id sel f) id =
        some (updateState sub id sel f) := find_updateState t id sel f hfind
    have hcomp2 : (updateState sub id sel f).comp =
        some (slots.modify (fun a => ⟨a.tag, f a.val⟩) sel) :=
      comp_updateState_self hroot hcomp sel f
    exact processDrain_eq (drainMsgs_one h1)
      (by rw [Finset.sort_singleton]; exact renderRoots_single hfind2 hcomp2)

/-- Witness for `setter_deferred_mutation`: a one-component tree, slot `0`. -/
theorem setter_deferred_mutation_witness :
    Dispatch.processDrain (.node 0 (some [⟨0, 5⟩]) [])
      [{ f := fun n => n + 1, targetComponent := 0, targetState := some 0 }] =
      .ok (Dispatch.updateState (.node 0 (some [⟨0, 5⟩]) []) 0 0 (fun n => n + 1),
        [.rerender 0]) :=
  (setter_deferred_mutation (Dispatch.DTree.node 0 (some [⟨0, 5⟩]) [])
    (Dispatch.DTree.node 0 (some [⟨0, 5⟩]) [])
    [⟨0, 5⟩] 0 0 (fun n => n + 1) ⟨Dispatch.DTree.node 0 (some [⟨0, 5⟩]) [], []⟩
    (by simp [Dispatch.allIds_eq])
    (Dispatch.find_self _) rfl (by decide)).2.2

open Hooks Dispatch in
/-- C5: queuing, in one pump drain, a mutation on a mounted strict descendant
`sub` of the (component) root `t` and then a mutation on the root itself
yields exactly one re-render pass, rooted at the ancestor: the descendant is
walked out of *roots* into *flagged* and is not independently re-rendered
(the event list is exactly `[rerender t.rootId]`), while both messages' value
payloads are applied to their slots. -/
theorem dirty_dedup_single_rerender
    (t sub : DTree) (p : List Nat) (sa sd : List (Arc Nat)) (fd fa : Nat → Nat)
    (hnd : (allIds t).Nodup) (hpath : PathAt t p sub) (hp : p ≠ [])
    (hca : t.comp = some sa) (hla : 0 < sa.length)
    (hcd : sub.comp = some sd) (hld : 0 < sd.length) :
    processDrain t
      [{ f := fd, targetComponent := sub.rootId, targetState := some 0 },
       { f := fa, targetComponent := t.rootId, targetState := some 0 }] =
      .ok (updateState (updateState t sub.rootId 0 fd) t.rootId 0 fa,
        [.rerender t.rootId]) := by
  have hndsub : (allIds sub).Nodup := pathAt_nodup hnd hpath
  have hd_below : sub.rootId ∈ idsL t.children :=
    pathAt_below hpath hp _ (by rw [allIds_eq]; exact List.mem_cons_self _ _)
  have ha_not_below : t.rootId ∉ idsL t.children := root_not_below hnd
  have hne_ad : t.rootId ≠ sub.rootId := fun heq => ha_not_below (heq ▸ hd_below)
  -- message 1: mutate the descendant's slot, root it, flag its subtree
  have hfind1 : find t sub.rootId = some sub := find_of_pathAt hnd hpath
  have h1 := processOne_mut
    (m := { f := fd, targetComponent := sub.rootId, targetState := some 0 })
    (∅, ∅) hfind1 hcd rfl hld (Finset.not_mem_empty _)
  have hwalk1 := walkL_full sub.children (insert sub.rootId ∅, ∅)
    (nodup_below hndsub) (fun x _ => Finset.not_mem_empty x)
  rw [hwalk1] at h1
  have hd_not_belowD : sub.rootId ∉ (idsL sub.children).toFinset := by
    rw [List.mem_toFinset]
    exact root_not_below hndsub
  have hroots1 : insert sub.rootId (∅ : Finset Nat) \ (idsL sub.children).toFinset =
      {sub.rootId} := by
    ext x
    simp only [Finset.mem_sdiff, Finset.mem_insert, Finset.not_mem_empty, or_false,
      Finset.mem_singleton]
    exact ⟨fun hx => hx.1, fun hx => ⟨hx, fun hmem => hd_not_belowD (hx ▸ hmem)⟩⟩
  have hflag1 : (∅ : Finset Nat) ∪ (idsL sub.children).toFinset =
      (idsL sub.children).toFinset := Finset.empty_union _
  rw [hroots1, hflag1] at h1
  -- message 2: the ancestor is not flagged, so it becomes a root and its walk
  -- pulls the descendant out of *roots*
  have hfind2 : find (updateState t sub.rootId 0 fd) t.rootId =
      some (updateState t sub.rootId 0 fd) := find_updateState t _ 0 fd (find_self t)
  have hcomp2 : (updateState t sub.rootId 0 fd).comp = some sa :=
    comp_updateState_other hne_ad hca 0 fd
  have hflag2 : t.rootId ∉ (idsL sub.children).toFinset := by
    rw [List.mem_toFinset]
    intro hmem
    exact ha_not_below
      (pathAt_below hpath hp _ (by rw [allIds_eq]; exact List.mem_cons_of_mem _ hmem))
  have h2 := processOne_mut
    (m := { f := fa, targetComponent := t.rootId, targetState := some 0 })
    ({sub.rootId}, (idsL sub.children).toFinset) hfind2 hcomp2 rfl hla hflag2
  rw [children_updateState_walk] at h2
  -- the walk from the root removes the descendant from *roots* …
  obtain ⟨c, hc, p', hsub', hpeq⟩ :
      ∃ c, c ∈ t.children ∧ ∃ p', PathAt c p' sub ∧ p = c.rootId :: p' := by
    cases hpath with
    | refl => exact absurd rfl hp
    | step hc hsub => exact ⟨_, hc, _, hsub, rfl⟩
  have hpnot : ∀ x ∈ p, x ∉ (idsL sub.children).toFinset := by
    intro x hx
    rw [List.mem_toFinset]
    exact pathAt_not_below_s hpath hnd x hx
  have hdrem : sub.rootId ∉
      (walkL t.children (insert t.rootId {sub.rootId},
        (idsL sub.children).toFinset)).1 := by
    refine walkL_removes (idsL t.children).length t.children _ c sub p' le_rfl
      (nodup_below hnd) hc hsub' ?_ ?_
    · exact hpnot _ (hpeq ▸ List.mem_cons_self _ _)
    · exact fun x hx => hpnot x (hpeq ▸ List.mem_cons_of_mem _ hx)
  -- … while the ancestor survives
  have haroots : t.rootId ∈
      (walkL t.children (insert t.rootId {sub.rootId},
        (idsL sub.children).toFinset)).1 :=
    walkL_roots_lower t.children _ _ (Finset.mem_insert_self _ _) ha_not_below
  have hroots2 : (walkL t.children (insert t.rootId {sub.rootId},
      (idsL sub.children).toFinset)).1 = {t.rootId} := by
    ext x
    simp only [Finset.mem_singleton]
    constructor
    · intro hx
      rcases Finset.mem_insert.mp
          (walkL_roots_subset t.children _ hx) with h | h
      · exact h
      · rw [Finset.mem_singleton] at h
        subst h
        exact absurd hx hdrem
    · intro hx
      subst hx
      exact haroots
  have hW : walkL t.children (insert t.rootId {sub.rootId},
      (idsL sub.children).toFinset) =
      ({t.rootId}, (walkL t.children (insert t.rootId {sub.rootId},
        (idsL sub.children).toFinset)).2) := by
    rw [← hroots2]
  rw [hW] at h2
  -- assemble the drain and the single re-render
  have hfind3 : find (updateState (updateState t sub.rootId 0 fd) t.rootId 0 fa)
      t.rootId = some (updateState (updateState t sub.rootId 0 fd) t.rootId 0 fa) := by
    exact find_updateState (updateState t sub.rootId 0 fd) t.rootId 0 fa hfind2
  have hcomp3 : (updateState (updateState t sub.rootId 0 fd) t.rootId 0 fa).comp =
      some (sa.modify (fun a => ⟨a.tag, fa a.val⟩) 0) :=
    comp_updateState_self (rootId_updateState t _ 0 fd) hcomp2 0 fa
  exact processDrain_eq (drainMsgs_two h1 h2)
    (by rw [Finset.sort_singleton]; exact renderRoots_single hfind3 hcomp3)

/-- Witness for `dirty_dedup_single_rerender`: a two-node tree, component `1`
mounted as the only child of component `0`; a message to `1` followed by a
message to `0` re-renders only node `0` while both slot mutations apply. -/
theorem dirty_dedup_single_rerender_witness :
    Dispatch.processDrain
      (.node 0 (some [⟨0, 5⟩]) [.node 1 (some [⟨1, 6⟩]) []])
      [{ f := fun _ => 7, targetComponent := 1, targetState := some 0 },
       { f := fun n => n + 1, targetComponent := 0, targetState := some 0 }] =
      .ok (Dispatch.updateState
        (Dispatch.updateState
          (.node 0 (some [⟨0, 5⟩]) [.node 1 (some [⟨1, 6⟩]) []]) 1 0 (fun _ => 7))
        0 0 (fun n => n + 1), [.rerender 0]) :=
  dirty_dedup_single_rerender
    (Dispatch.DTree.node 0 (some [⟨0, 5⟩]) [Dispatch.DTree.node 1 (some [⟨1, 6⟩]) []])
    (Dispatch.DTree.node 1 (some [⟨1, 6⟩]) []) [1] [⟨0, 5⟩] [⟨1, 6⟩]
    (fun _ => 7) (fun n => n + 1)
    (by simp [Dispatch.allIds_eq])
    (Dispatch.PathAt.step (c := Dispatch.DTree.node 1 (some [⟨1, 6⟩]) [])
      (by simp) (Dispatch.PathAt.refl _))
    (by decide) rfl (by decide) rfl (by decide)

namespace PrimDiff

/-! Auxiliary lemmas for the primitive-tree diff. -/

theorem palinP_mk (d : PrimitiveData) (ch : List PElem) :
    palinP (.mk d ch) = (ch = ch.reverse ∧ palinL ch) := by
  simp [palinP]

theorem palinL_cons (e : PElem) (es : List PElem) :
    palinL (e :: es) = (palinP e ∧ palinL es) := by
  simp [palinL]

theorem mountPrimL_forall₂ : ∀ (ch : List PElem) (c : Nat),
    List.Forall₂ MountsOf (mountPrimL ch c).1 ch := by
  intro ch
  induction ch with
  | nil =>
    intro c
    simp only [mountPrimL]
    exact List.Forall₂.nil
  | cons e es ih =>
    intro c
    simp only [mountPrimL]
    exact List.Forall₂.cons ⟨c, rfl⟩ (ih _)

theorem diffChildrenP_palin :
    ∀ (es : List PElem) (ts : List PTree),
    List.Forall₂ MountsOf ts es → palinL es →
    (∀ e' ∈ es, ∀ c c' : Nat, palinP e' →
      ((diffPrim (mountPrim e' c).1 e' c').2.2.all BEvent.isDiff) = true ∧
      (diffPrim (mountPrim e' c).1 e' c').2.2.length = countP e') →
    ∀ c' : Nat,
    ((diffChildrenP ts es c').2.2.all BEvent.isDiff) = true ∧
    (diffChildrenP ts es c').2.2.length = countPL es := by
  intro es
  induction es with
  | nil =>
    intro ts hf _ _ c'
    cases hf
    simp [diffChildrenP, countPL, unmountPrimL]
  | cons e es' ih =>
    intro ts hf hp hIH c'
    rw [palinL_cons] at hp
    cases hf with
    | cons hhead htail =>
      rename_i t ts'
      obtain ⟨c₀, rfl⟩ := hhead
      simp only [diffChildrenP]
      obtain ⟨hall, hlen⟩ := hIH e (List.mem_cons_self _ _) c₀ c' hp.1
      obtain ⟨hall', hlen'⟩ := ih ts' htail hp.2
        (fun e' he' => hIH e' (List.mem_cons_of_mem _ he'))
        (diffPrim (mountPrim e c₀).1 e c').2.1
      constructor
      · simp [List.all_append, hall, hall']
      · simp [List.length_append, hlen, hlen', countPL]

theorem diff_mount_aux : ∀ (n : Nat) (e : PElem), sizeOf e ≤ n →
    ∀ (c c' : Nat), palinP e →
    ((diffPrim (mountPrim e c).1 e c').2.2.all BEvent.isDiff) = true ∧
    (diffPrim (mountPrim e c).1 e c').2.2.length = countP e := by
  intro n
  induction n with
  | zero =>
    intro e hlen
    cases e with
    | mk d ch =>
      simp only [PElem.mk.sizeOf_spec] at hlen
      omega
  | succ n ih =>
    intro e hlen c c' hp
    cases e with
    | mk d ch =>
      rw [palinP_mk] at hp
      have hf : List.Forall₂ MountsOf ((mountPrimL ch (c + 1)).1).reverse ch := by
        have h1 := mountPrimL_forall₂ ch (c + 1)
        have h2 := List.forall₂_reverse_iff.mpr h1
        rwa [← hp.1] at h2
      have hIH : ∀ e' ∈ ch, ∀ c₀ c₁ : Nat, palinP e' →
          ((diffPrim (mountPrim e' c₀).1 e' c₁).2.2.all BEvent.isDiff) = true ∧
          (diffPrim (mountPrim e' c₀).1 e' c₁).2.2.length = countP e' := by
        intro e' he' c₀ c₁ hp'
        refine ih e' ?_ c₀ c₁ hp'
        have hmem := List.sizeOf_lt_of_mem he'
        simp only [PElem.mk.sizeOf_spec] at hlen
        omega
      obtain ⟨hall, hlen2⟩ :=
        diffChildrenP_palin ch ((mountPrimL ch (c + 1)).1).reverse hf hp.2 hIH c'
      simp only [mountPrim, diffPrim]
      constructor
      · simp [List.all_cons, hall, BEvent.isDiff]
      · simp [hlen2, countP]
        omega

end PrimDiff

open PrimDiff in
/-- C3, failing as stated: re-diffing a mounted tree against the very Element
tree it was mounted from does issue a Bridge mutation call.  Mounting the
single text element `"a"` and diffing the mounted node against an equal
element produces exactly one `diff_primitive` call (Primitive-vs-Primitive in
`Context::diff` always calls `dom.diff_primitive`, internal.rs:448-449) — not
zero Bridge calls. -/
theorem rediff_unchanged_tree_calls_bridge :
    (diffPrim (mountPrim (.mk (.text "a") []) 0).1 (.mk (.text "a") []) 1).2.2 =
      [.diffPrimitive 0 (.text "a")] ∧
    (diffPrim (mountPrim (.mk (.text "a") []) 0).1
      (.mk (.text "a") []) 1).2.2 ≠ [] := by
  constructor
  · simp [mountPrim, diffPrim, diffChildrenP, mountPrimL, unmountPrimL]
  · simp [mountPrim, diffPrim, diffChildrenP, mountPrimL, unmountPrimL]

open PrimDiff in
/-- C3, amended: re-diffing a mounted primitive tree against the Element tree
it was mounted from issues no `mount_as_child` and no `remove` Bridge calls,
but it is not call-free: every event is a `diff_primitive` call and there is
exactly one per primitive node.  Because `diff_children` pops old unkeyed
children from the tail while consuming new elements head-first (see C4), the
equal-tree guarantee needs every node's child list to be reversal-invariant
(`palinP`; in particular any tree whose nodes have at most one child). -/
theorem rediff_palindromic_tree_only_diff_calls (e : PElem) (c c' : Nat)
    (hp : palinP e) :
    ((diffPrim (mountPrim e c).1 e c').2.2.all BEvent.isDiff) = true ∧
    (diffPrim (mountPrim e c).1 e c').2.2.length = countP e :=
  diff_mount_aux (sizeOf e) e le_rfl c c' hp

/-- Witness for `rediff_palindromic_tree_only_diff_calls`: a node with two
equal text children (a palindromic child list). -/
theorem rediff_palindromic_tree_only_diff_calls_witness :
    ((PrimDiff.diffPrim
        (PrimDiff.mountPrim
          (.mk .node [.mk (.text "x") [], .mk (.text "x") []]) 0).1
        (.mk .node [.mk (.text "x") [], .mk (.text "x") []]) 9).2.2.all
      PrimDiff.BEvent.isDiff) = true ∧
    (PrimDiff.diffPrim
        (PrimDiff.mountPrim
          (.mk .node [.mk (.text "x") [], .mk (.text "x") []]) 0).1
        (.mk .node [.mk (.text "x") [], .mk (.text "x") []]) 9).2.2.length =
      PrimDiff.countP (.mk .node [.mk (.text "x") [], .mk (.text "x") []]) :=
  rediff_palindromic_tree_only_diff_calls
    (.mk .node [.mk (.text "x") [], .mk (.text "x") []]) 0 9
    (by simp [PrimDiff.palinP, PrimDiff.palinL])

end BevyHooked
